import Mathlib

/-!
Verification of the Crossdrop LAN file-sharing backend
(`backend/fastapi_app`): the connection-handshake registry
(`utils/connection_manager.py`), the discovery peer table
(`utils/discovery_service.py`), the transfer progress tracker
(`utils/transfer_progress.py`) and the TCP receive path
(`utils/file_handler.py`, `utils/transfer_service.py`).

Python `dict` / `OrderedDict` instances are embedded as association lists
with insert-or-replace-in-place semantics (`dictInsert`), which matches
the ordering behaviour of Python 3.7+ dicts.  Wall-clock readings
(`datetime.now()`, `time.time()`) enter every operation as an explicit
argument.
-/

set_option linter.unusedVariables false

namespace Crossdrop

/-! ## Association-list dictionaries (Python `dict` semantics) -/

/-- Lookup in an association list: first entry with the given key. -/
def dictGet {κ α : Type} [DecidableEq κ] (k : κ) : List (κ × α) → Option α
  | [] => none
  | (k', v) :: rest => if k' = k then some v else dictGet k rest

/-- Python `d[k] = v`: replace in place if the key is present, else append. -/
def dictInsert {κ α : Type} [DecidableEq κ] (k : κ) (v : α) : List (κ × α) → List (κ × α)
  | [] => [(k, v)]
  | (k', v') :: rest => if k' = k then (k, v) :: rest else (k', v') :: dictInsert k v rest

/-- Python `del d[k]` (no error if absent, matching guarded deletes). -/
def dictErase {κ α : Type} [DecidableEq κ] (k : κ) : List (κ × α) → List (κ × α)
  | [] => []
  | (k', v') :: rest => if k' = k then rest else (k', v') :: dictErase k rest

theorem dictGet_insert_self {κ α : Type} [DecidableEq κ] (k : κ) (v : α)
    (l : List (κ × α)) : dictGet k (dictInsert k v l) = some v := by
  induction l with
  | nil => simp [dictInsert, dictGet]
  | cons p rest ih =>
    obtain ⟨k', v'⟩ := p
    by_cases h : k' = k
    · simp [dictInsert, dictGet, h]
    · simp [dictInsert, dictGet, h, ih]

theorem dictGet_insert_ne {κ α : Type} [DecidableEq κ] (k j : κ) (v : α)
    (l : List (κ × α)) (hne : j ≠ k) :
    dictGet j (dictInsert k v l) = dictGet j l := by
  induction l with
  | nil => simp only [dictInsert, dictGet, if_neg (Ne.symm hne)]
  | cons p rest ih =>
    obtain ⟨k', v'⟩ := p
    by_cases h : k' = k
    · subst h
      simp only [dictInsert, if_pos rfl, dictGet, if_neg (Ne.symm hne)]
    · by_cases h2 : k' = j
      · subst h2
        simp [dictInsert, h, dictGet]
      · simp only [dictInsert, if_neg h, dictGet, if_neg h2, ih]

theorem dictGet_erase_self {κ α : Type} [DecidableEq κ] (k : κ)
    (l : List (κ × α)) (hnd : (l.map Prod.fst).Nodup) :
    dictGet k (dictErase k l) = none := by
  induction l with
  | nil => simp [dictErase, dictGet]
  | cons p rest ih =>
    obtain ⟨k', v'⟩ := p
    simp only [List.map_cons, List.nodup_cons] at hnd
    by_cases h : k' = k
    · subst h
      simp only [dictErase, if_pos rfl]
      -- k' no longer occurs in rest, so lookup fails
      clear ih
      induction rest with
      | nil => simp [dictGet]
      | cons q rest2 ih2 =>
        obtain ⟨k2, v2⟩ := q
        simp only [List.map_cons, List.mem_cons, List.nodup_cons] at hnd
        have hk2 : k2 ≠ k' := fun h => hnd.1 (h ▸ Or.inl rfl)
        simp only [dictGet, if_neg hk2]
        exact ih2 ⟨fun hm => hnd.1 (Or.inr hm), hnd.2.2⟩
    · simp only [dictErase, if_neg h, dictGet, if_neg h]
      exact ih hnd.2

theorem dictGet_erase_ne {κ α : Type} [DecidableEq κ] (k j : κ)
    (l : List (κ × α)) (hne : j ≠ k) :
    dictGet j (dictErase k l) = dictGet j l := by
  induction l with
  | nil => simp [dictErase]
  | cons p rest ih =>
    obtain ⟨k', v'⟩ := p
    by_cases h : k' = k
    · subst h
      simp [dictErase, dictGet, Ne.symm hne]
    · by_cases h2 : k' = j
      · subst h2
        simp [dictErase, h, dictGet]
      · simp only [dictErase, if_neg h, dictGet, if_neg h2, ih]

theorem mem_dictInsert {κ α : Type} [DecidableEq κ] {k : κ} {v : α}
    {l : List (κ × α)} {p : κ × α} (hp : p ∈ dictInsert k v l) :
    p = (k, v) ∨ p ∈ l := by
  induction l with
  | nil =>
    simp only [dictInsert, List.mem_singleton] at hp
    exact Or.inl hp
  | cons q rest ih =>
    obtain ⟨k', v'⟩ := q
    by_cases h : k' = k
    · simp only [dictInsert, if_pos h, List.mem_cons] at hp
      rcases hp with h1 | h2
      · exact Or.inl h1
      · exact Or.inr (List.mem_cons_of_mem _ h2)
    · simp only [dictInsert, if_neg h, List.mem_cons] at hp
      rcases hp with h1 | h2
      · exact Or.inr (h1 ▸ List.mem_cons_self _ _)
      · rcases ih h2 with h3 | h4
        · exact Or.inl h3
        · exact Or.inr (List.mem_cons_of_mem _ h4)

theorem dictErase_sublist {κ α : Type} [DecidableEq κ] (k : κ) :
    ∀ l : List (κ × α), (dictErase k l).Sublist l := by
  intro l
  induction l with
  | nil => simp [dictErase]
  | cons p rest ih =>
    obtain ⟨k', v'⟩ := p
    by_cases h : k' = k
    · simp only [dictErase, if_pos h]
      exact (List.Sublist.refl rest).cons _
    · simp only [dictErase, if_neg h]
      exact ih.cons₂ (k', v')

theorem mem_dictErase {κ α : Type} [DecidableEq κ] {k : κ}
    {l : List (κ × α)} {p : κ × α} (hp : p ∈ dictErase k l) : p ∈ l :=
  (dictErase_sublist k l).mem hp

theorem nodupKeys_dictInsert {κ α : Type} [DecidableEq κ] (k : κ) (v : α)
    (l : List (κ × α)) (hnd : (l.map Prod.fst).Nodup) :
    ((dictInsert k v l).map Prod.fst).Nodup := by
  induction l with
  | nil => simp [dictInsert]
  | cons p rest ih =>
    obtain ⟨k', v'⟩ := p
    simp only [List.map_cons, List.nodup_cons] at hnd
    by_cases h : k' = k
    · subst h
      simpa [dictInsert, List.nodup_cons] using hnd
    · simp only [dictInsert, if_neg h, List.map_cons, List.nodup_cons]
      refine ⟨fun hmem => ?_, ih hnd.2⟩
      rcases List.mem_map.mp hmem with ⟨q, hq, hfst⟩
      rcases mem_dictInsert hq with h1 | h2
      · exact h (by rw [h1] at hfst; exact hfst.symm)
      · exact hnd.1 (hfst ▸ List.mem_map_of_mem Prod.fst h2)

theorem nodupKeys_dictErase {κ α : Type} [DecidableEq κ] (k : κ)
    (l : List (κ × α)) (hnd : (l.map Prod.fst).Nodup) :
    ((dictErase k l).map Prod.fst).Nodup :=
  ((dictErase_sublist k l).map Prod.fst).nodup hnd

theorem dictGet_mem {κ α : Type} [DecidableEq κ] {k : κ} {l : List (κ × α)} {v : α}
    (h : dictGet k l = some v) : (k, v) ∈ l := by
  induction l with
  | nil => simp [dictGet] at h
  | cons p rest ih =>
    obtain ⟨k', v'⟩ := p
    by_cases hk : k' = k
    · subst hk
      have hv : v' = v := by simpa [dictGet] using h
      subst hv
      exact List.mem_cons_self _ _
    · simp only [dictGet, if_neg hk] at h
      exact List.mem_cons_of_mem _ (ih h)

/-! ## Connection registry (`utils/connection_manager.py`)

The source names every request by the string `req_{counter}_{timestamp}`
(`request_connection`, line 30).  The decimal renderings of the counter and
the timestamp contain no underscore, so the string determines the
(counter, timestamp) pair uniquely; the embedding therefore uses the pair
itself as the request id.  Status fields are kept as the literal strings
the source stores. -/

abbrev RequestId := Nat × Nat

/-- One entry of `ConnectionManager.pending_requests`. -/
structure ConnRequest where
  from_ip : String
  from_name : String
  to_ip : String
  to_name : String
  status : String
  created_at : Nat
  accepted_at : Option Nat
  rejected_at : Option Nat
deriving DecidableEq, Repr

/-- One entry of `ConnectionManager.connections`. -/
structure ConnInfo where
  peer_ip : String
  peer_name : String
  connected_at : Nat
  status : String
deriving DecidableEq, Repr

/-- The in-memory state of `ConnectionManager` (`__init__`, lines 15-19). -/
structure ConnectionManager where
  connections : List (String × ConnInfo)
  pending_requests : List (RequestId × ConnRequest)
  request_counter : Nat
deriving DecidableEq, Repr

/-- Fresh registry, as built by `ConnectionManager.__init__`. -/
def ConnectionManager.init : ConnectionManager :=
  { connections := [], pending_requests := [], request_counter := 0 }

/-- `ConnectionManager.request_connection` (lines 21-42).  `now` is the
`datetime.now()` reading taken inside the lock. -/
def request_connection (m : ConnectionManager)
    (from_ip from_name to_ip to_name : String) (now : Nat) :
    RequestId × ConnectionManager :=
  let counter := m.request_counter + 1
  let request_id : RequestId := (counter, now)
  (request_id,
   { m with
     request_counter := counter,
     pending_requests := dictInsert request_id
       { from_ip := from_ip, from_name := from_name,
         to_ip := to_ip, to_name := to_name,
         status := "pending", created_at := now,
         accepted_at := none, rejected_at := none }
       m.pending_requests })

/-- `ConnectionManager.accept_connection` (lines 44-73).  The `to_ip`
argument is deliberately unused by the source: only the peer's
`from_ip` is stored in the connection map. -/
def accept_connection (m : ConnectionManager) (request_id : RequestId)
    (from_ip to_ip : String) (now : Nat) : Bool × ConnectionManager :=
  match dictGet request_id m.pending_requests with
  | none => (false, m)
  | some req =>
    if req.status ≠ "pending" then (false, m)
    else
      (true,
       { m with
         pending_requests := dictInsert request_id
           { req with status := "accepted", accepted_at := some now }
           m.pending_requests,
         connections := dictInsert from_ip
           { peer_ip := from_ip, peer_name := req.from_name,
             connected_at := now, status := "connected" }
           m.connections })

/-- `ConnectionManager.reject_connection` (lines 75-83).  Note that the
source checks only membership of `request_id`, not the current status. -/
def reject_connection (m : ConnectionManager) (request_id : RequestId)
    (now : Nat) : Bool × ConnectionManager :=
  match dictGet request_id m.pending_requests with
  | none => (false, m)
  | some req =>
      (true,
       { m with
         pending_requests := dictInsert request_id
           { req with status := "rejected", rejected_at := some now }
           m.pending_requests })

/-- `ConnectionManager.disconnect` (lines 85-89). -/
def disconnect (m : ConnectionManager) (peer_ip : String) : ConnectionManager :=
  { m with connections := dictErase peer_ip m.connections }

/-- `ConnectionManager.is_connected` (lines 91-94). -/
def is_connected (m : ConnectionManager) (peer_ip : String) : Bool :=
  match dictGet peer_ip m.connections with
  | some info => info.status == "connected"
  | none => false

/-- A row of the list returned by `get_connections` (lines 103-111). -/
structure ConnSummary where
  peer_ip : String
  peer_name : String
  connected_at : Nat
deriving DecidableEq, Repr

/-- `ConnectionManager.get_connections` (lines 96-111). -/
def get_connections (m : ConnectionManager) (exclude_ip : Option String) :
    List ConnSummary :=
  (m.connections.filter fun p =>
      p.2.status == "connected" &&
        (match exclude_ip with
         | none => true
         | some ex => p.2.peer_ip != ex)).map
    fun p =>
      { peer_ip := p.2.peer_ip, peer_name := p.2.peer_name,
        connected_at := p.2.connected_at }

/-- The `/connections/connection-accepted` handler
(`routes/connections.py`, lines 338-364): upserts a connection keyed by
the notification's `peer_ip`, with no check against the local IP. -/
def receive_connection_accepted (m : ConnectionManager)
    (peer_ip peer_name : String) (now : Nat) : ConnectionManager :=
  { m with
    connections := dictInsert peer_ip
      { peer_ip := peer_ip, peer_name := peer_name,
        connected_at := now, status := "connected" }
      m.connections }

/-! ### Registry operation sequences (for the terminal-status claims) -/

/-- One mutating call on the registry, with its wall-clock reading. -/
inductive RegOp where
  | request (from_ip from_name to_ip to_name : String) (now : Nat)
  | accept (request_id : RequestId) (from_ip to_ip : String) (now : Nat)
  | reject (request_id : RequestId) (now : Nat)
  | disconnect (peer_ip : String)
deriving DecidableEq, Repr

/-- Apply one registry operation, discarding the returned value. -/
def regStep (m : ConnectionManager) : RegOp → ConnectionManager
  | .request f fn t tn now => (request_connection m f fn t tn now).2
  | .accept rid f t now => (accept_connection m rid f t now).2
  | .reject rid now => (reject_connection m rid now).2
  | .disconnect ip => disconnect m ip

/-- Apply a sequence of registry operations. -/
def regRun (m : ConnectionManager) : List RegOp → ConnectionManager
  | [] => m
  | op :: ops => regRun (regStep m op) ops

/-- Counters of stored requests never exceed the running counter; this is
the freshness invariant behind `request_connection`'s unique ids. -/
def counterBound (m : ConnectionManager) : Prop :=
  ∀ p ∈ m.pending_requests, p.1.1 ≤ m.request_counter

instance (m : ConnectionManager) : Decidable (counterBound m) := by
  unfold counterBound; infer_instance

theorem counterBound_regStep {m : ConnectionManager} (h : counterBound m)
    (op : RegOp) : counterBound (regStep m op) := by
  cases op with
  | request f fn t tn now =>
    intro p hp
    rcases mem_dictInsert hp with h1 | h2
    · simp [h1, regStep, request_connection]
    · exact Nat.le_succ_of_le (h p h2)
  | accept rid f t now =>
    simp only [regStep, accept_connection]
    cases hg : dictGet rid m.pending_requests with
    | none => exact h
    | some req =>
      dsimp only
      by_cases hs : req.status = "pending"
      · rw [if_neg (not_not_intro hs)]
        intro p hp
        rcases mem_dictInsert hp with h1 | h2
        · have hb := h _ (dictGet_mem hg)
          simpa [h1] using hb
        · exact h p h2
      · rw [if_pos hs]
        exact h
  | reject rid now =>
    simp only [regStep, reject_connection]
    cases hg : dictGet rid m.pending_requests with
    | none => exact h
    | some req =>
      intro p hp
      rcases mem_dictInsert hp with h1 | h2
      · have := h _ (dictGet_mem hg)
        simpa [h1] using this
      · exact h p h2
  | disconnect ip => exact h

theorem counterBound_regRun {m : ConnectionManager} (h : counterBound m)
    (ops : List RegOp) : counterBound (regRun m ops) := by
  induction ops generalizing m with
  | nil => exact h
  | cons op ops ih => exact ih (counterBound_regStep h op)

/-- A non-`pending` request is untouched by any operation other than a
`reject` aimed at its own id: its whole record survives unchanged. -/
theorem regStep_preserves_nonpending {m : ConnectionManager}
    (hinv : counterBound m) {rid : RequestId} {req : ConnRequest}
    (hget : dictGet rid m.pending_requests = some req)
    (hst : req.status ≠ "pending") (op : RegOp)
    (hop : ∀ now, op ≠ RegOp.reject rid now) :
    dictGet rid (regStep m op).pending_requests = some req := by
  cases op with
  | request f fn t tn now =>
    have hle : rid.1 ≤ m.request_counter := hinv _ (dictGet_mem hget)
    have hne : rid ≠ (m.request_counter + 1, now) := by
      intro hr
      rw [hr] at hle
      omega
    simpa [regStep, request_connection, dictGet_insert_ne _ _ _ _ hne] using hget
  | accept rid2 f t now =>
    simp only [regStep, accept_connection]
    cases hg : dictGet rid2 m.pending_requests with
    | none => exact hget
    | some req2 =>
      dsimp only
      by_cases hs : req2.status = "pending"
      · rw [if_neg (not_not_intro hs)]
        have hne : rid ≠ rid2 := by
          intro hr
          rw [hr, hg] at hget
          cases hget
          exact hst hs
        simpa [dictGet_insert_ne _ _ _ _ hne] using hget
      · rw [if_pos hs]
        exact hget
  | reject rid2 now =>
    have hne : rid ≠ rid2 := fun hr => hop now (by rw [hr])
    simp only [regStep, reject_connection]
    cases hg : dictGet rid2 m.pending_requests with
    | none => exact hget
    | some req2 =>
      simpa [dictGet_insert_ne _ _ _ _ hne] using hget
  | disconnect ip => exact hget

/-- `reject_connection` on any stored request overwrites its status with
`"rejected"` and stamps `rejected_at` (lines 81-82). -/
theorem regStep_reject_sets {m : ConnectionManager} {rid : RequestId}
    {req : ConnRequest} (hget : dictGet rid m.pending_requests = some req)
    (now : Nat) :
    dictGet rid (regStep m (RegOp.reject rid now)).pending_requests =
      some { req with status := "rejected", rejected_at := some now } := by
  simp only [regStep, reject_connection, hget]
  exact dictGet_insert_self _ _ _

/-- One step preserves the status `"rejected"`. -/
theorem regStep_rejected {m : ConnectionManager} (hinv : counterBound m)
    {rid : RequestId} {req : ConnRequest}
    (hget : dictGet rid m.pending_requests = some req)
    (hst : req.status = "rejected") (op : RegOp) :
    ∃ req2, dictGet rid (regStep m op).pending_requests = some req2 ∧
      req2.status = "rejected" := by
  by_cases hop : ∃ now, op = RegOp.reject rid now
  · obtain ⟨now, rfl⟩ := hop
    exact ⟨_, regStep_reject_sets hget now, rfl⟩
  · push_neg at hop
    refine ⟨req, ?_, hst⟩
    exact regStep_preserves_nonpending hinv hget (by simp [hst]) op hop

/-- Any run of registry operations preserves the status `"rejected"`. -/
theorem regRun_rejected {m : ConnectionManager} (hinv : counterBound m)
    {rid : RequestId} {req : ConnRequest}
    (hget : dictGet rid m.pending_requests = some req)
    (hst : req.status = "rejected") (ops : List RegOp) :
    ∃ req2, dictGet rid (regRun m ops).pending_requests = some req2 ∧
      req2.status = "rejected" := by
  induction ops generalizing m req with
  | nil => exact ⟨req, hget, hst⟩
  | cons op ops ih =>
    obtain ⟨req2, hg2, hs2⟩ := regStep_rejected hinv hget hst op
    exact ih (counterBound_regStep hinv op) hg2 hs2

/-- Any run of registry operations that never rejects this id leaves a
non-`pending` request entirely unchanged. -/
theorem regRun_preserves_nonpending {m : ConnectionManager}
    (hinv : counterBound m) {rid : RequestId} {req : ConnRequest}
    (hget : dictGet rid m.pending_requests = some req)
    (hst : req.status ≠ "pending") (ops : List RegOp)
    (hops : ∀ now, RegOp.reject rid now ∉ ops) :
    dictGet rid (regRun m ops).pending_requests = some req := by
  induction ops generalizing m with
  | nil => exact hget
  | cons op ops ih =>
    have hop : ∀ now, op ≠ RegOp.reject rid now := by
      intro now h
      exact hops now (h ▸ List.mem_cons_self _ _)
    have hg2 := regStep_preserves_nonpending hinv hget hst op hop
    exact ih (counterBound_regStep hinv op) hg2
      (fun now h => hops now (List.mem_cons_of_mem _ h))

/-! ### Claims about the connection registry -/

/-- Claim C2: `accept_connection(request_id, from_ip, to_ip)` returns false
if the id is unknown or the request is not `"pending"`, leaving both the
request map and the connection map unchanged; in particular a second
accept on an already-accepted request fails.  On success it sets the
status to `"accepted"`, stamps `accepted_at`, and inserts a `Connection`
keyed by `from_ip` — every other key of the connection map, `to_ip`
included, is untouched. -/
theorem accept_connection_contract (m : ConnectionManager) (rid : RequestId)
    (f t : String) (now : Nat) :
    (dictGet rid m.pending_requests = none →
      accept_connection m rid f t now = (false, m)) ∧
    (∀ req, dictGet rid m.pending_requests = some req → req.status ≠ "pending" →
      accept_connection m rid f t now = (false, m)) ∧
    (∀ req, dictGet rid m.pending_requests = some req → req.status = "pending" →
      (accept_connection m rid f t now).1 = true ∧
      dictGet rid (accept_connection m rid f t now).2.pending_requests =
        some { req with status := "accepted", accepted_at := some now } ∧
      dictGet f (accept_connection m rid f t now).2.connections =
        some { peer_ip := f, peer_name := req.from_name,
               connected_at := now, status := "connected" } ∧
      (∀ ip, ip ≠ f →
        dictGet ip (accept_connection m rid f t now).2.connections =
          dictGet ip m.connections) ∧
      (t ≠ f →
        dictGet t (accept_connection m rid f t now).2.connections =
          dictGet t m.connections) ∧
      (∀ f2 t2 now2,
        (accept_connection (accept_connection m rid f t now).2 rid f2 t2 now2).1 =
          false)) := by
  refine ⟨?_, ?_, ?_⟩
  · intro hnone
    simp [accept_connection, hnone]
  · intro req hget hst
    simp [accept_connection, hget, hst]
  · intro req hget hst
    have hmain : accept_connection m rid f t now =
        (true,
         { m with
           pending_requests := dictInsert rid
             { req with status := "accepted", accepted_at := some now }
             m.pending_requests,
           connections := dictInsert f
             { peer_ip := f, peer_name := req.from_name,
               connected_at := now, status := "connected" }
             m.connections }) := by
      simp [accept_connection, hget, hst]
    refine ⟨by rw [hmain], ?_, ?_, ?_, ?_, ?_⟩
    · rw [hmain]
      exact dictGet_insert_self _ _ _
    · rw [hmain]
      exact dictGet_insert_self _ _ _
    · intro ip hip
      rw [hmain]
      exact dictGet_insert_ne _ _ _ _ hip
    · intro hip
      rw [hmain]
      exact dictGet_insert_ne _ _ _ _ hip
    · intro f2 t2 now2
      rw [hmain]
      simp [accept_connection, dictGet_insert_self]

/-- A two-device scenario: bob (10.0.0.9) sends a request to alice
(10.0.0.5); used to instantiate the registry theorems on concrete data. -/
def reqManager : ConnectionManager :=
  (request_connection ConnectionManager.init "10.0.0.9" "bob" "10.0.0.5" "alice" 1).2

/-- The pending request stored by `reqManager`, under id (1, 1). -/
def reqPending : ConnRequest :=
  { from_ip := "10.0.0.9", from_name := "bob",
    to_ip := "10.0.0.5", to_name := "alice",
    status := "pending", created_at := 1,
    accepted_at := none, rejected_at := none }

/-- `reqManager` after alice accepts the request at time 2. -/
def acceptedManager : ConnectionManager :=
  (accept_connection reqManager (1, 1) "10.0.0.9" "10.0.0.5" 2).2

/-- The accepted form of `reqPending`. -/
def reqAccepted : ConnRequest :=
  { reqPending with status := "accepted", accepted_at := some 2 }

/-- Claim C2, witnessed on a concrete registry: the stored request is
accepted successfully, the connection lands under the requester's ip
10.0.0.9, and a second accept of the same id fails. -/
theorem accept_connection_contract_witness :
    (accept_connection reqManager (1, 1) "10.0.0.9" "10.0.0.5" 2).1 = true ∧
    dictGet "10.0.0.9"
        (accept_connection reqManager (1, 1) "10.0.0.9" "10.0.0.5" 2).2.connections =
      some { peer_ip := "10.0.0.9", peer_name := "bob",
             connected_at := 2, status := "connected" } ∧
    (accept_connection (accept_connection reqManager (1, 1) "10.0.0.9" "10.0.0.5" 2).2
        (1, 1) "10.0.0.9" "10.0.0.5" 3).1 = false := by
  have h := (accept_connection_contract reqManager (1, 1) "10.0.0.9" "10.0.0.5" 2).2.2
    reqPending (by decide) (by decide)
  exact ⟨h.1, h.2.2.1, h.2.2.2.2.2 "10.0.0.9" "10.0.0.5" 3⟩

/-- Claim C3 counterexample: on a registry holding an accepted request,
`reject_connection` succeeds and flips that request's status to
`"rejected"` — an accepted-to-rejected transition, because the source
checks only membership of the id, never the current status. -/
theorem reject_after_accept_flips_status :
    (dictGet (1, 1) acceptedManager.pending_requests).map ConnRequest.status =
      some "accepted" ∧
    (reject_connection acceptedManager (1, 1) 3).1 = true ∧
    (dictGet (1, 1)
        (reject_connection acceptedManager (1, 1) 3).2.pending_requests).map
      ConnRequest.status = some "rejected" := by
  decide

/-- Claim C3 (amended): a `"rejected"` status is final under every sequence
of registry operations; an `"accepted"` status is final under every
sequence that contains no `reject_connection` on that id (indeed the whole
record survives unchanged); but `reject_connection` itself succeeds on an
accepted request and turns it `"rejected"`, since it checks only
membership.  There is no transition back to `"pending"`. -/
theorem terminal_status_amended (m : ConnectionManager) (hinv : counterBound m)
    (rid : RequestId) (req : ConnRequest)
    (hget : dictGet rid m.pending_requests = some req) :
    (req.status = "rejected" → ∀ ops : List RegOp,
      ∃ req2, dictGet rid (regRun m ops).pending_requests = some req2 ∧
        req2.status = "rejected") ∧
    (req.status = "accepted" → ∀ ops : List RegOp,
      (∀ now, RegOp.reject rid now ∉ ops) →
      dictGet rid (regRun m ops).pending_requests = some req) ∧
    (req.status = "accepted" → ∀ now : Nat,
      (reject_connection m rid now).1 = true ∧
      (dictGet rid (reject_connection m rid now).2.pending_requests).map
        ConnRequest.status = some "rejected") := by
  refine ⟨?_, ?_, ?_⟩
  · intro hst ops
    exact regRun_rejected hinv hget hst ops
  · intro hst ops hops
    exact regRun_preserves_nonpending hinv hget (by simp [hst]) ops hops
  · intro hst now
    constructor
    · simp [reject_connection, hget]
    · have hs := regStep_reject_sets hget now
      simp only [regStep] at hs
      simp [hs]

/-- Claim C3 (amended), witnessed: the concrete accepted request survives a
disconnect and a fresh request unchanged. -/
theorem terminal_status_amended_witness :
    dictGet (1, 1)
        (regRun acceptedManager
          [RegOp.disconnect "10.0.0.9",
           RegOp.request "10.0.0.5" "alice" "10.0.0.9" "bob" 4]).pending_requests =
      some reqAccepted := by
  have h := (terminal_status_amended acceptedManager (by decide) (1, 1) reqAccepted
    (by decide)).2.1
  exact h rfl _ (by intro now hmem; simp at hmem)

/-- Claim C4 counterexample: the acceptance-notification receiver stores
the notification's `peer_ip` verbatim, with no comparison against the
local IP; a notification carrying the device's own IP (here 10.0.0.5)
creates a connection entry keyed by that very IP, so the stated write-path
invariant fails. -/
theorem notification_can_store_own_ip :
    dictGet "10.0.0.5"
        (receive_connection_accepted ConnectionManager.init
          "10.0.0.5" "alice" 7).connections =
      some { peer_ip := "10.0.0.5", peer_name := "alice",
             connected_at := 7, status := "connected" } ∧
    is_connected (receive_connection_accepted ConnectionManager.init
        "10.0.0.5" "alice" 7) "10.0.0.5" = true := by
  decide

/-- Claim C4 (amended): both write paths insert only under the peer ip
they are given (`from_ip` for `accept_connection`, the notification's
`peer_ip` for the receiver), so the map stays free of the device's own IP
exactly when those arguments differ from it.  After a successful
`accept_connection(rid, from_ip = A, to_ip = B)` on a map holding no
entry for B, `get_connections()` contains an entry for A and none for B;
and the notification receiver preserves B-freeness whenever the notified
`peer_ip` differs from B. -/
theorem self_exclusion_amended (m : ConnectionManager) (rid : RequestId)
    (A B : String) (now : Nat) (req : ConnRequest)
    (hget : dictGet rid m.pending_requests = some req)
    (hst : req.status = "pending") (hAB : A ≠ B)
    (hfree : ∀ p ∈ m.connections, p.2.peer_ip ≠ B) :
    (∃ e ∈ get_connections (accept_connection m rid A B now).2 none,
      e.peer_ip = A) ∧
    (∀ e ∈ get_connections (accept_connection m rid A B now).2 none,
      e.peer_ip ≠ B) ∧
    (∀ pip pname : String, ∀ now2 : Nat, pip ≠ B →
      ∀ p ∈ (receive_connection_accepted m pip pname now2).connections,
        p.2.peer_ip ≠ B) := by
  have hmain : (accept_connection m rid A B now).2 =
      { m with
        pending_requests := dictInsert rid
          { req with status := "accepted", accepted_at := some now }
          m.pending_requests,
        connections := dictInsert A
          { peer_ip := A, peer_name := req.from_name,
            connected_at := now, status := "connected" }
          m.connections } := by
    simp [accept_connection, hget, hst]
  refine ⟨?_, ?_, ?_⟩
  · refine ⟨⟨A, req.from_name, now⟩, ?_, rfl⟩
    rw [hmain]
    refine List.mem_map.mpr ⟨(A, ⟨A, req.from_name, now, "connected"⟩), ?_, rfl⟩
    refine List.mem_filter.mpr ⟨?_, by simp⟩
    exact dictGet_mem (dictGet_insert_self _ _ _)
  · intro e he
    rw [hmain] at he
    rcases List.mem_map.mp he with ⟨p, hp, rfl⟩
    have hp2 := List.mem_filter.mp hp
    rcases mem_dictInsert hp2.1 with h1 | h2
    · simpa [h1] using hAB
    · exact hfree p h2
  · intro pip pname now2 hpip p hp
    rcases mem_dictInsert (l := m.connections) (by simpa [receive_connection_accepted] using hp)
      with h1 | h2
    · simpa [h1] using hpip
    · exact hfree p h2

/-- Claim C4 (amended), witnessed: on bob's concrete request to alice,
accepting with from_ip 10.0.0.9 and to_ip 10.0.0.5 lists 10.0.0.9. -/
theorem self_exclusion_amended_witness :
    ∃ e ∈ get_connections
        (accept_connection reqManager (1, 1) "10.0.0.9" "10.0.0.5" 2).2 none,
      e.peer_ip = "10.0.0.9" := by
  exact (self_exclusion_amended reqManager (1, 1) "10.0.0.9" "10.0.0.5" 2 reqPending
    (by decide) rfl (by decide) (by decide)).1

/-! ## Discovery peer table (`utils/discovery_service.py`)

The broadcast datagram is the JSON object `{"device_name": string,
"ip": string}` (`_broadcast_loop`, lines 98-101); `_update_peer` stores
`{**peer_info, "last_seen": datetime.now().isoformat()}` keyed by the
reported ip (lines 184-187).  Every stored `last_seen` is therefore a
timestamp written by `datetime.now().isoformat()`, which
`datetime.fromisoformat` parses back successfully; timestamps are
modelled as naturals, and the float comparison
`elapsed > PEER_TIMEOUT` as its natural counterpart. -/

/-- Keys of an association list are pairwise distinct. -/
def keysNodup {κ α : Type} (l : List (κ × α)) : Prop :=
  (l.map Prod.fst).Nodup

/-- A stored peer entry (broadcast payload fields plus `last_seen`). -/
structure PeerEntry where
  device_name : String
  last_seen : Nat
deriving DecidableEq, Repr

abbrev PeerTable := List (String × PeerEntry)

/-- `DiscoveryService.PEER_TIMEOUT` (line 30): 15 seconds. -/
def PEER_TIMEOUT : Nat := 15

/-- Device names of the table are pairwise distinct (at most one entry
per device_name). -/
def namesNodup (table : PeerTable) : Prop :=
  (table.map fun p => p.2.device_name).Nodup

/-- `DiscoveryService._update_peer` (lines 165-190): evict the first
entry carrying the same device_name under a different ip, then upsert
the reported ip with a fresh `last_seen`. -/
def update_peer (table : PeerTable) (ip device_name : String) (now : Nat) :
    PeerTable :=
  let old := table.find? fun p => p.2.device_name == device_name && p.1 != ip
  let table2 :=
    match old with
    | some (old_ip, _) => dictErase old_ip table
    | none => table
  dictInsert ip ⟨device_name, now⟩ table2

/-- A sequence of `_update_peer` calls: (ip, device_name, now) triples in
arrival order. -/
def updateRun (table : PeerTable) : List (String × String × Nat) → PeerTable
  | [] => table
  | (ip, nm, now) :: us => updateRun (update_peer table ip nm now) us

/-- One pass of the expiry sweep in `DiscoveryService._cleanup_loop`
(lines 197-215): collect the ips whose `last_seen` lies strictly more
than `PEER_TIMEOUT` in the past, then delete each of them. -/
def cleanup_sweep (table : PeerTable) (now : Nat) : PeerTable :=
  let expired_peers :=
    (table.filter fun p => now - p.2.last_seen > PEER_TIMEOUT).map Prod.fst
  expired_peers.foldl (fun t ip => dictErase ip t) table

/-- A row of the snapshot returned by `get_peers` (lines 241-251). -/
structure PeerSummary where
  ip : String
  device_name : String
  last_seen : Nat
deriving DecidableEq, Repr

/-- `DiscoveryService.get_peers` (lines 241-251). -/
def get_peers (table : PeerTable) : List PeerSummary :=
  table.map fun p => ⟨p.1, p.2.device_name, p.2.last_seen⟩

/-! ### Dictionary facts used by the peer-table proofs -/

theorem dictGet_of_mem_nodup {κ α : Type} [DecidableEq κ] {l : List (κ × α)}
    (hk : keysNodup l) {k : κ} {v : α} (hm : (k, v) ∈ l) :
    dictGet k l = some v := by
  induction l with
  | nil => cases hm
  | cons p rest ih =>
    obtain ⟨k', v'⟩ := p
    simp only [keysNodup, List.map_cons, List.nodup_cons] at hk
    rcases List.mem_cons.mp hm with h1 | h2
    · cases h1
      simp [dictGet]
    · have hne : k' ≠ k := by
        intro he
        exact hk.1 (he ▸ List.mem_map_of_mem Prod.fst h2)
      simp only [dictGet, if_neg hne]
      exact ih hk.2 h2

theorem dictGet_eq_none_of_forall {κ α : Type} [DecidableEq κ]
    {l : List (κ × α)} {k : κ} (h : ∀ p ∈ l, p.1 ≠ k) :
    dictGet k l = none := by
  induction l with
  | nil => rfl
  | cons p rest ih =>
    obtain ⟨k', v'⟩ := p
    simp only [dictGet, if_neg (h (k', v') (List.mem_cons_self _ _))]
    exact ih fun q hq => h q (List.mem_cons_of_mem _ hq)

/-- Removing a present key (under distinct keys) is a permutation away
from the original list. -/
theorem perm_cons_dictErase {κ α : Type} [DecidableEq κ] {l : List (κ × α)}
    (hk : keysNodup l) {k : κ} {v : α} (hm : (k, v) ∈ l) :
    l.Perm ((k, v) :: dictErase k l) := by
  induction l with
  | nil => cases hm
  | cons p rest ih =>
    obtain ⟨k', v'⟩ := p
    simp only [keysNodup, List.map_cons, List.nodup_cons] at hk
    by_cases he : k' = k
    · subst he
      have hv : v' = v := by
        rcases List.mem_cons.mp hm with h1 | h2
        · cases h1; rfl
        · exact absurd (List.mem_map_of_mem Prod.fst h2) hk.1
      subst hv
      simp [dictErase]
    · have hm2 : (k, v) ∈ rest := by
        rcases List.mem_cons.mp hm with h1 | h2
        · cases h1; exact absurd rfl he
        · exact h2
      have h2 : ((k', v') :: rest).Perm ((k', v') :: (k, v) :: dictErase k rest) :=
        (ih hk.2 hm2).cons _
      have h3 : ((k', v') :: (k, v) :: dictErase k rest).Perm
          ((k, v) :: (k', v') :: dictErase k rest) := List.Perm.swap _ _ _
      have h4 := h2.trans h3
      simpa [dictErase, he] using h4

/-- Under distinct keys, erasing is filtering the key away. -/
theorem dictErase_eq_filter {κ α : Type} [DecidableEq κ] {l : List (κ × α)}
    (hk : keysNodup l) (k : κ) :
    dictErase k l = l.filter fun p => p.1 != k := by
  induction l with
  | nil => rfl
  | cons p rest ih =>
    obtain ⟨k', v'⟩ := p
    simp only [keysNodup, List.map_cons, List.nodup_cons] at hk
    by_cases he : k' = k
    · subst he
      have hres : rest.filter (fun p => p.1 != k') = rest :=
        List.filter_eq_self.mpr fun q hq => by
          simp only [bne_iff_ne, ne_eq]
          intro hc
          exact hk.1 (hc ▸ List.mem_map_of_mem Prod.fst hq)
      simp [dictErase, hres]
    · simp [dictErase, he, List.filter_cons, bne_iff_ne, ih hk.2]

theorem keysNodup_dictInsert {κ α : Type} [DecidableEq κ] (k : κ) (v : α)
    {l : List (κ × α)} (hk : keysNodup l) :
    keysNodup (dictInsert k v l) :=
  nodupKeys_dictInsert k v l hk

theorem keysNodup_dictErase {κ α : Type} [DecidableEq κ] (k : κ)
    {l : List (κ × α)} (hk : keysNodup l) :
    keysNodup (dictErase k l) :=
  nodupKeys_dictErase k l hk

/-! ### Peer de-duplication (claim C5) -/

theorem namesNodup_dictInsert {table : PeerTable} (hk : keysNodup table)
    (hn : namesNodup table) {ip nm : String} {now : Nat}
    (hfresh : ∀ p ∈ table, p.1 ≠ ip → p.2.device_name ≠ nm) :
    namesNodup (dictInsert ip ⟨nm, now⟩ table) := by
  induction table with
  | nil => simp [dictInsert, namesNodup]
  | cons p rest ih =>
    obtain ⟨k', v'⟩ := p
    simp only [keysNodup, List.map_cons, List.nodup_cons] at hk
    simp only [namesNodup, List.map_cons, List.nodup_cons] at hn
    by_cases he : k' = ip
    · subst he
      have hstep : dictInsert k' (⟨nm, now⟩ : PeerEntry) ((k', v') :: rest) =
          (k', ⟨nm, now⟩) :: rest := by
        simp [dictInsert]
      rw [hstep]
      simp only [namesNodup, List.map_cons, List.nodup_cons]
      refine ⟨fun hmem => ?_, hn.2⟩
      rcases List.mem_map.mp hmem with ⟨q, hq, hname⟩
      have hq1 : q.1 ≠ k' := fun hc =>
        hk.1 (hc ▸ List.mem_map_of_mem Prod.fst hq)
      exact hfresh q (List.mem_cons_of_mem _ hq) hq1 hname
    · have hstep : dictInsert ip (⟨nm, now⟩ : PeerEntry) ((k', v') :: rest) =
          (k', v') :: dictInsert ip ⟨nm, now⟩ rest := by
        simp [dictInsert, he]
      rw [hstep]
      simp only [namesNodup, List.map_cons, List.nodup_cons]
      refine ⟨fun hmem => ?_, ih hk.2 hn.2
        fun q hq hq1 => hfresh q (List.mem_cons_of_mem _ hq) hq1⟩
      rcases List.mem_map.mp hmem with ⟨q, hq, hname⟩
      rcases mem_dictInsert hq with h1 | h2
      · have hv : v'.device_name = nm := by
          rw [h1] at hname
          exact hname.symm
        exact hfresh (k', v') (List.mem_cons_self _ _) he hv
      · exact hn.1 (hname ▸ List.mem_map_of_mem _ h2)

/-- `_update_peer` preserves both table invariants: distinct keys and at
most one entry per device_name. -/
theorem update_peer_invariant {table : PeerTable} (hk : keysNodup table)
    (hn : namesNodup table) (ip nm : String) (now : Nat) :
    keysNodup (update_peer table ip nm now) ∧
    namesNodup (update_peer table ip nm now) := by
  unfold update_peer
  cases hfind : table.find? fun p => p.2.device_name == nm && p.1 != ip with
  | none =>
    dsimp only
    have hfresh : ∀ p ∈ table, p.1 ≠ ip → p.2.device_name ≠ nm := by
      intro p hp hp1 hname
      have := List.find?_eq_none.mp hfind p hp
      simp [hname, hp1] at this
    exact ⟨keysNodup_dictInsert _ _ hk, namesNodup_dictInsert hk hn hfresh⟩
  | some q =>
    obtain ⟨old_ip, old_e⟩ := q
    dsimp only
    have hq := List.find?_some hfind
    have hqm := List.mem_of_find?_eq_some hfind
    simp only [Bool.and_eq_true, beq_iff_eq, bne_iff_ne, ne_eq] at hq
    have hk2 : keysNodup (dictErase old_ip table) := keysNodup_dictErase _ hk
    have hperm := perm_cons_dictErase hk hqm
    have hn0 : (table.map fun p : String × PeerEntry => p.2.device_name).Nodup := hn
    have hcons := ((hperm.map fun p : String × PeerEntry =>
      p.2.device_name).nodup_iff).mp hn0
    simp only [List.map_cons, List.nodup_cons] at hcons
    have hn2 : namesNodup (dictErase old_ip table) := hcons.2
    have hnotin : old_e.device_name ∉
        (dictErase old_ip table).map fun p => p.2.device_name := hcons.1
    have hfresh : ∀ p ∈ dictErase old_ip table, p.1 ≠ ip →
        p.2.device_name ≠ nm := by
      intro p hp hp1 hname
      exact hnotin (by
        rw [hq.1, ← hname]
        exact List.mem_map_of_mem _ hp)
    exact ⟨keysNodup_dictInsert _ _ hk2, namesNodup_dictInsert hk2 hn2 hfresh⟩

theorem updateRun_invariant (us : List (String × String × Nat))
    {table : PeerTable} (hk : keysNodup table) (hn : namesNodup table) :
    keysNodup (updateRun table us) ∧ namesNodup (updateRun table us) := by
  induction us generalizing table with
  | nil => exact ⟨hk, hn⟩
  | cons u us ih =>
    obtain ⟨ip, nm, now⟩ := u
    obtain ⟨hk2, hn2⟩ := update_peer_invariant hk hn ip nm now
    exact ih hk2 hn2

/-- Claim C5: after any sequence of `_update_peer` calls starting from the
empty table, the peer table holds at most one entry per device_name; and
on any table satisfying the invariants, broadcasts from device "X" first
at ip A and then at ip B (A ≠ B) leave exactly one entry for "X", keyed
by B and carrying the fresh timestamp. -/
theorem peer_dedup :
    (∀ us : List (String × String × Nat), namesNodup (updateRun [] us)) ∧
    (∀ (table : PeerTable), keysNodup table → namesNodup table →
      ∀ (A B X : String) (t1 t2 : Nat), A ≠ B →
        dictGet B (update_peer (update_peer table A X t1) B X t2) =
          some ⟨X, t2⟩ ∧
        ∀ p ∈ update_peer (update_peer table A X t1) B X t2,
          p.2.device_name = X → p = (B, ⟨X, t2⟩)) := by
  constructor
  · intro us
    exact (updateRun_invariant us (by simp [keysNodup]) (by simp [namesNodup])).2
  · intro table hk hn A B X t1 t2 hAB
    obtain ⟨hk1, hn1⟩ := update_peer_invariant hk hn A X t1
    obtain ⟨hk2, hn2⟩ := update_peer_invariant hk1 hn1 B X t2
    have hget : dictGet B (update_peer (update_peer table A X t1) B X t2) =
        some ⟨X, t2⟩ := by
      unfold update_peer
      cases (update_peer table A X t1).find? fun p =>
          p.2.device_name == X && p.1 != B with
      | none => exact dictGet_insert_self _ _ _
      | some q => exact dictGet_insert_self _ _ _
    refine ⟨hget, ?_⟩
    intro p hp hname
    have hBmem : (B, (⟨X, t2⟩ : PeerEntry)) ∈
        update_peer (update_peer table A X t1) B X t2 := dictGet_mem hget
    exact List.inj_on_of_nodup_map hn2 hp hBmem (by simpa using hname)

/-- Claim C5, witnessed: device X broadcasts from 10.0.0.7 then from
10.0.0.8; the table ends with the single entry keyed 10.0.0.8. -/
theorem peer_dedup_witness :
    dictGet "10.0.0.8" (update_peer (update_peer [] "10.0.0.7" "X" 1) "10.0.0.8" "X" 2) =
      some ⟨"X", 2⟩ ∧
    update_peer (update_peer [] "10.0.0.7" "X" 1) "10.0.0.8" "X" 2 =
      [("10.0.0.8", ⟨"X", 2⟩)] := by
  have h := (peer_dedup.2 [] (by simp [keysNodup]) (by simp [namesNodup])
    "10.0.0.7" "10.0.0.8" "X" 1 2 (by decide))
  exact ⟨h.1, by decide⟩

/-! ### Peer expiry (claim C6) -/

instance {κ α : Type} [DecidableEq κ] (l : List (κ × α)) :
    Decidable (keysNodup l) := by
  unfold keysNodup
  infer_instance

instance (table : PeerTable) : Decidable (namesNodup table) := by
  unfold namesNodup
  infer_instance

theorem foldl_dictErase_eq_filter {κ α : Type} [DecidableEq κ]
    (K : List κ) {l : List (κ × α)} (hk : keysNodup l) :
    K.foldl (fun t ip => dictErase ip t) l =
      l.filter fun p => !(K.contains p.1) := by
  induction K generalizing l with
  | nil => simp
  | cons k K ih =>
    have h1 : dictErase k l = l.filter fun p => p.1 != k :=
      dictErase_eq_filter hk k
    have hk2 : keysNodup (dictErase k l) := keysNodup_dictErase _ hk
    show K.foldl _ (dictErase k l) = _
    rw [ih hk2, h1, List.filter_filter]
    apply List.filter_congr
    intro p hp
    simp only [List.contains_cons, Bool.not_or, bne]
    exact Bool.and_comm _ _

/-- One sweep pass keeps precisely the entries whose `last_seen` is at
most `PEER_TIMEOUT` old. -/
theorem cleanup_sweep_eq {table : PeerTable} (hk : keysNodup table)
    (now : Nat) :
    cleanup_sweep table now =
      table.filter fun p => !(decide (now - p.2.last_seen > PEER_TIMEOUT)) := by
  unfold cleanup_sweep
  rw [foldl_dictErase_eq_filter _ hk]
  apply List.filter_congr
  intro p hp
  by_cases hexp : now - p.2.last_seen > PEER_TIMEOUT
  · have hmem : p.1 ∈ (table.filter fun q =>
        decide (now - q.2.last_seen > PEER_TIMEOUT)).map Prod.fst :=
      List.mem_map_of_mem _ (List.mem_filter.mpr ⟨hp, by simpa using hexp⟩)
    simp [hexp, hmem]
  · have hnmem : p.1 ∉ (table.filter fun q =>
        decide (now - q.2.last_seen > PEER_TIMEOUT)).map Prod.fst := by
      intro hmem
      rcases List.mem_map.mp hmem with ⟨q, hqf, hq1⟩
      have hqt := (List.mem_filter.mp hqf).1
      have hqe := (List.mem_filter.mp hqf).2
      have hqp : q = p := List.inj_on_of_nodup_map hk hqt hp hq1
      rw [hqp] at hqe
      simp at hqe
      exact hexp hqe
    simp [hexp, hnmem]

/-- Claim C6: a single pass of the cleanup sweep evicts exactly those
peers whose `last_seen` lies strictly more than `PEER_TIMEOUT` (15 s)
before the current time (on reachable tables every stored timestamp was
written by `_update_peer`, so the unparseable-timestamp arm of the source
cannot fire); every other entry is retained unchanged, and an evicted ip
is absent both from the table and from the next `get_peers()` snapshot. -/
theorem peer_expiry (table : PeerTable) (hk : keysNodup table) (now : Nat) :
    (∀ p, p ∈ cleanup_sweep table now ↔
        p ∈ table ∧ ¬(now - p.2.last_seen > PEER_TIMEOUT)) ∧
    (∀ ip e, (ip, e) ∈ table → ¬(now - e.last_seen > PEER_TIMEOUT) →
        dictGet ip (cleanup_sweep table now) = some e) ∧
    (∀ ip e, (ip, e) ∈ table → now - e.last_seen > PEER_TIMEOUT →
        dictGet ip (cleanup_sweep table now) = none ∧
        ∀ r ∈ get_peers (cleanup_sweep table now), r.ip ≠ ip) := by
  have heq := cleanup_sweep_eq hk now
  refine ⟨?_, ?_, ?_⟩
  · intro p
    rw [heq]
    simp [List.mem_filter]
  · intro ip e hm hkeep
    have hk2 : keysNodup (cleanup_sweep table now) := by
      rw [heq]
      exact ((List.filter_sublist _).map Prod.fst).nodup hk
    apply dictGet_of_mem_nodup hk2
    rw [heq]
    exact List.mem_filter.mpr ⟨hm, by simpa using hkeep⟩
  · intro ip e hm hexp
    have hall : ∀ p ∈ cleanup_sweep table now, p.1 ≠ ip := by
      intro p hp hc
      rw [heq] at hp
      have hpt := (List.mem_filter.mp hp).1
      have hpk := (List.mem_filter.mp hp).2
      have hpe : p = (ip, e) := List.inj_on_of_nodup_map hk hpt hm hc
      rw [hpe] at hpk
      simp at hpk
      omega
    refine ⟨dictGet_eq_none_of_forall hall, ?_⟩
    intro r hr hc
    rcases List.mem_map.mp hr with ⟨p, hp, hpr⟩
    subst hpr
    simp only at hc
    exact hall p hp hc

/-- Claim C6, witnessed: at time 30, the peer last seen at 0 (30 s ago)
is evicted and the peer last seen at 20 (10 s ago) is retained. -/
theorem peer_expiry_witness :
    dictGet "10.0.0.7"
        (cleanup_sweep [("10.0.0.7", ⟨"X", 0⟩), ("10.0.0.8", ⟨"Y", 20⟩)] 30) =
      none ∧
    dictGet "10.0.0.8"
        (cleanup_sweep [("10.0.0.7", ⟨"X", 0⟩), ("10.0.0.8", ⟨"Y", 20⟩)] 30) =
      some ⟨"Y", 20⟩ := by
  have h := peer_expiry [("10.0.0.7", ⟨"X", 0⟩), ("10.0.0.8", ⟨"Y", 20⟩)]
    (by decide) 30
  exact ⟨(h.2.2 "10.0.0.7" ⟨"X", 0⟩ (by decide) (by decide)).1,
    h.2.1 "10.0.0.8" ⟨"Y", 20⟩ (by decide) (by decide)⟩

/-! ## Transfer progress tracker (`utils/transfer_progress.py`)

Floating-point wall-clock readings (`time.time()`) and rates are
modelled as rationals; socket objects are identified by numeric
handles. -/

/-- One entry of `TransferProgressTracker._progress`
(`create_transfer`, lines 33-48). -/
structure Progress where
  direction : String
  sender_ip : String
  receiver_ip : String
  filename : String
  file_size : Nat
  bytes_transferred : Nat
  progress_percent : ℚ
  speed : ℚ
  start_time : ℚ
  last_update : ℚ
  status : String
  last_bytes : Nat
  last_time : ℚ
deriving DecidableEq, Repr

/-- The tracker state: the progress map and the attached cancellation
sockets (`__init__`, lines 13-16). -/
structure Tracker where
  _progress : List (String × Progress)
  _active_sockets : List (String × Nat)
deriving DecidableEq, Repr

/-- `create_transfer` (lines 18-50). -/
def create_transfer (tk : Tracker)
    (transfer_id direction sender_ip receiver_ip filename : String)
    (file_size : Nat) (socket_obj : Option Nat) (now : ℚ) : Tracker :=
  { _progress := dictInsert transfer_id
      { direction := direction, sender_ip := sender_ip,
        receiver_ip := receiver_ip, filename := filename,
        file_size := file_size, bytes_transferred := 0,
        progress_percent := 0, speed := 0, start_time := now,
        last_update := now, status := "active", last_bytes := 0,
        last_time := now } tk._progress,
    _active_sockets :=
      match socket_obj with
      | some s => dictInsert transfer_id s tk._active_sockets
      | none => tk._active_sockets }

/-- `update_progress` (lines 52-83): no-op on an unknown id. -/
def update_progress (tk : Tracker) (transfer_id : String)
    (bytes_transferred : Nat) (now : ℚ) : Tracker :=
  match dictGet transfer_id tk._progress with
  | none => tk
  | some p =>
    let percent : ℚ :=
      if p.file_size > 0 then
        ((bytes_transferred : ℚ) / (p.file_size : ℚ)) * 100
      else 0
    let time_delta : ℚ := now - p.last_time
    let bytes_delta : ℚ := (bytes_transferred : ℚ) - (p.last_bytes : ℚ)
    let speed : ℚ :=
      if time_delta > 0 then (bytes_delta / (1024 * 1024)) / time_delta else 0
    { tk with
      _progress := dictInsert transfer_id
        { p with bytes_transferred := bytes_transferred,
                 progress_percent := percent, speed := speed,
                 last_update := now, last_bytes := bytes_transferred,
                 last_time := now } tk._progress }

/-- `get_progress` (lines 85-88). -/
def get_progress (tk : Tracker) (transfer_id : String) : Option Progress :=
  dictGet transfer_id tk._progress

/-- `complete_transfer` (lines 104-109): on a present id it overwrites
exactly `status` and `progress_percent`; unknown ids are ignored. -/
def complete_transfer (tk : Tracker) (transfer_id : String) : Tracker :=
  match dictGet transfer_id tk._progress with
  | none => tk
  | some p =>
      { tk with
        _progress := dictInsert transfer_id
          { p with status := "completed", progress_percent := 100 }
          tk._progress }

/-- `fail_transfer` (lines 111-115). -/
def fail_transfer (tk : Tracker) (transfer_id : String) : Tracker :=
  match dictGet transfer_id tk._progress with
  | none => tk
  | some p =>
      { tk with
        _progress := dictInsert transfer_id
          { p with status := "failed" } tk._progress }

/-- `set_socket` (lines 117-121). -/
def set_socket (tk : Tracker) (transfer_id : String) (socket_obj : Nat) :
    Tracker :=
  match dictGet transfer_id tk._progress with
  | none => tk
  | some _ =>
      { tk with
        _active_sockets := dictInsert transfer_id socket_obj
          tk._active_sockets }

/-- Result of `cancel_transfer`: the returned boolean, the new tracker
state, and which socket handle (if any) had `close()` called on it. -/
structure CancelResult where
  ok : Bool
  state : Tracker
  closed_socket : Option Nat
deriving DecidableEq, Repr

/-- `cancel_transfer` (lines 123-153).  The socket's `close()` runs inside
`try/except Exception: pass`, so whether close raises (`close_raises`)
has no effect on the resulting state; the intermediate
`status = 'cancelled'` marking is followed, under the same lock, by
`del self._progress[transfer_id]`, so the net transition is deletion. -/
def cancel_transfer (tk : Tracker) (transfer_id : String)
    (close_raises : Bool) : CancelResult :=
  match dictGet transfer_id tk._progress with
  | none => { ok := false, state := tk, closed_socket := none }
  | some p =>
    if p.status ≠ "active" then { ok := false, state := tk, closed_socket := none }
    else
      { ok := true,
        state := { _progress := dictErase transfer_id tk._progress,
                   _active_sockets := dictErase transfer_id tk._active_sockets },
        closed_socket := dictGet transfer_id tk._active_sockets }

/-- `remove_transfer` (lines 155-161). -/
def remove_transfer (tk : Tracker) (transfer_id : String) : Tracker :=
  { _progress := dictErase transfer_id tk._progress,
    _active_sockets := dictErase transfer_id tk._active_sockets }

/-- `cleanup_old_transfers` (lines 163-174). -/
def cleanup_old_transfers (tk : Tracker) (max_age_seconds : Nat) (now : ℚ) :
    Tracker :=
  let to_remove :=
    (tk._progress.filter fun p =>
      (p.2.status == "completed" || p.2.status == "failed") &&
        decide (now - p.2.last_update > (max_age_seconds : ℚ))).map Prod.fst
  { tk with
    _progress := to_remove.foldl (fun t transfer_id => dictErase transfer_id t)
      tk._progress }

/-- The check `_handle_client` performs after `receive_file` returns
(`transfer_service.py`, lines 191-201): the partial file is deleted only
if `get_progress` still yields an entry whose status is `'cancelled'`. -/
def handler_observes_cancelled (tk : Tracker) (transfer_id : String) : Bool :=
  match get_progress tk transfer_id with
  | some p => p.status == "cancelled"
  | none => false

/-- One mutating tracker call. -/
inductive TrackerOp where
  | create (transfer_id direction sender_ip receiver_ip filename : String)
      (file_size : Nat) (socket_obj : Option Nat) (now : ℚ)
  | update (transfer_id : String) (bytes_transferred : Nat) (now : ℚ)
  | complete (transfer_id : String)
  | fail (transfer_id : String)
  | set_socket (transfer_id : String) (socket_obj : Nat)
  | cancel (transfer_id : String) (close_raises : Bool)
  | remove (transfer_id : String)
  | cleanup (max_age_seconds : Nat) (now : ℚ)
deriving DecidableEq, Repr

/-- Apply one tracker operation, discarding returned values. -/
def trackerStep (tk : Tracker) : TrackerOp → Tracker
  | .create tid d s r f n sock now => create_transfer tk tid d s r f n sock now
  | .update tid b now => update_progress tk tid b now
  | .complete tid => complete_transfer tk tid
  | .fail tid => fail_transfer tk tid
  | .set_socket tid s => set_socket tk tid s
  | .cancel tid cr => (cancel_transfer tk tid cr).state
  | .remove tid => remove_transfer tk tid
  | .cleanup age now => cleanup_old_transfers tk age now

/-- Apply a sequence of tracker operations. -/
def trackerRun (tk : Tracker) : List TrackerOp → Tracker
  | [] => tk
  | op :: ops => trackerRun (trackerStep tk op) ops

/-- The operation is a `create_transfer` for this very id — the only call
that can resurrect a deleted entry (ids are fresh `uuid4` strings in the
source, so this never happens in practice). -/
def opCreates (transfer_id : String) : TrackerOp → Prop
  | .create tid _ _ _ _ _ _ _ => tid = transfer_id
  | _ => False

theorem dictGet_eq_none_iff {κ α : Type} [DecidableEq κ]
    {l : List (κ × α)} {k : κ} :
    dictGet k l = none ↔ ∀ p ∈ l, p.1 ≠ k := by
  induction l with
  | nil => simp [dictGet]
  | cons q rest ih =>
    obtain ⟨k', v'⟩ := q
    by_cases he : k' = k
    · subst he
      constructor
      · intro h
        simp [dictGet] at h
      · intro h
        exact absurd rfl (h (k', v') (List.mem_cons_self _ _))
    · simp only [dictGet, if_neg he]
      rw [ih]
      constructor
      · intro h p hp
        rcases List.mem_cons.mp hp with h1 | h2
        · rw [h1]
          exact he
        · exact h p h2
      · intro h p hp
        exact h p (List.mem_cons_of_mem _ hp)

theorem mem_foldl_dictErase {κ α : Type} [DecidableEq κ] {K : List κ}
    {l : List (κ × α)} {p : κ × α}
    (hp : p ∈ K.foldl (fun t k => dictErase k t) l) : p ∈ l := by
  induction K generalizing l with
  | nil => exact hp
  | cons k K ih => exact mem_dictErase (ih hp)

/-- No tracker operation other than a `create_transfer` with the same id
can make a missing progress entry reappear. -/
theorem trackerStep_absent {tk : Tracker} {transfer_id : String}
    (h : ∀ p ∈ tk._progress, p.1 ≠ transfer_id) (op : TrackerOp)
    (hop : ¬ opCreates transfer_id op) :
    ∀ p ∈ (trackerStep tk op)._progress, p.1 ≠ transfer_id := by
  cases op with
  | create tid d s r f n sock now =>
    intro p hp
    rcases mem_dictInsert hp with h1 | h2
    · rw [h1]
      exact fun hc => hop hc
    · exact h p h2
  | update tid b now =>
    simp only [trackerStep, update_progress]
    cases hg : dictGet tid tk._progress with
    | none => exact h
    | some p0 =>
      have htid : tid ≠ transfer_id := h _ (dictGet_mem hg)
      intro p hp
      rcases mem_dictInsert hp with h1 | h2
      · rw [h1]
        exact htid
      · exact h p h2
  | complete tid =>
    simp only [trackerStep, complete_transfer]
    cases hg : dictGet tid tk._progress with
    | none => exact h
    | some p0 =>
      have htid : tid ≠ transfer_id := h _ (dictGet_mem hg)
      intro p hp
      rcases mem_dictInsert hp with h1 | h2
      · rw [h1]
        exact htid
      · exact h p h2
  | fail tid =>
    simp only [trackerStep, fail_transfer]
    cases hg : dictGet tid tk._progress with
    | none => exact h
    | some p0 =>
      have htid : tid ≠ transfer_id := h _ (dictGet_mem hg)
      intro p hp
      rcases mem_dictInsert hp with h1 | h2
      · rw [h1]
        exact htid
      · exact h p h2
  | set_socket tid s =>
    simp only [trackerStep, set_socket]
    cases hg : dictGet tid tk._progress with
    | none => exact h
    | some p0 => exact h
  | cancel tid cr =>
    simp only [trackerStep, cancel_transfer]
    cases hg : dictGet tid tk._progress with
    | none => exact h
    | some p0 =>
      dsimp only
      by_cases hs : p0.status = "active"
      · rw [if_neg (not_not_intro hs)]
        exact fun p hp => h p (mem_dictErase hp)
      · rw [if_pos hs]
        exact h
  | remove tid =>
    exact fun p hp => h p (mem_dictErase hp)
  | cleanup age now =>
    exact fun p hp => h p (mem_foldl_dictErase hp)

theorem trackerRun_absent {tk : Tracker} {transfer_id : String}
    (h : ∀ p ∈ tk._progress, p.1 ≠ transfer_id) (ops : List TrackerOp)
    (hops : ∀ op ∈ ops, ¬ opCreates transfer_id op) :
    get_progress (trackerRun tk ops) transfer_id = none := by
  induction ops generalizing tk with
  | nil => exact dictGet_eq_none_iff.mpr h
  | cons op ops ih =>
    exact ih
      (trackerStep_absent h op (hops op (List.mem_cons_self _ _)))
      (fun op2 hop2 => hops op2 (List.mem_cons_of_mem _ hop2))

/-! ### Claims about the tracker (C9, C10) -/

/-- Claim C9 evidence: `cancel_transfer(id)` returns false, leaving the
tracker unchanged, iff the id is unknown or the entry's status is not
`'active'`.  On success it closes the attached socket (the outcome does
not depend on whether `close()` raises) and deletes the entry at once, so
`get_progress(id)` is `none` and remains `none` under every later
operation sequence that does not re-create the id.  Consequently the
receive handler's check `status == 'cancelled'` can never fire after a
cancellation: the partial-file deletion branch of `_handle_client` is
unreachable, so no partial file is deleted. -/
theorem cancel_transfer_contract (tk : Tracker) (transfer_id : String)
    (cr : Bool) (hk : keysNodup tk._progress) :
    ((cancel_transfer tk transfer_id cr).ok = false ↔
      get_progress tk transfer_id = none ∨
      ∃ p, get_progress tk transfer_id = some p ∧ p.status ≠ "active") ∧
    ((cancel_transfer tk transfer_id cr).ok = false →
      (cancel_transfer tk transfer_id cr).state = tk) ∧
    (∀ p, get_progress tk transfer_id = some p → p.status = "active" →
      (cancel_transfer tk transfer_id cr).ok = true ∧
      (cancel_transfer tk transfer_id cr).closed_socket =
        dictGet transfer_id tk._active_sockets ∧
      cancel_transfer tk transfer_id true = cancel_transfer tk transfer_id false ∧
      get_progress (cancel_transfer tk transfer_id cr).state transfer_id = none ∧
      (∀ ops : List TrackerOp, (∀ op ∈ ops, ¬ opCreates transfer_id op) →
        get_progress (trackerRun (cancel_transfer tk transfer_id cr).state ops)
          transfer_id = none) ∧
      handler_observes_cancelled (cancel_transfer tk transfer_id cr).state
        transfer_id = false) := by
  cases hg : dictGet transfer_id tk._progress with
  | none =>
    have hc : cancel_transfer tk transfer_id cr =
        { ok := false, state := tk, closed_socket := none } := by
      unfold cancel_transfer
      rw [hg]
    refine ⟨?_, ?_, ?_⟩
    · rw [hc]
      simp [get_progress, hg]
    · intro hfalse
      rw [hc]
    · intro p hp
      rw [get_progress, hg] at hp
      cases hp
  | some p0 =>
    by_cases hs : p0.status = "active"
    · have hc : ∀ b, cancel_transfer tk transfer_id b =
          { ok := true,
            state := { _progress := dictErase transfer_id tk._progress,
                       _active_sockets := dictErase transfer_id tk._active_sockets },
            closed_socket := dictGet transfer_id tk._active_sockets } := by
        intro b
        unfold cancel_transfer
        rw [hg]
        dsimp only
        rw [if_neg (not_not_intro hs)]
      have hnone : get_progress
          { _progress := dictErase transfer_id tk._progress,
            _active_sockets := dictErase transfer_id tk._active_sockets }
          transfer_id = none := dictGet_erase_self _ _ hk
      have habs : ∀ q ∈ dictErase transfer_id tk._progress,
          q.1 ≠ transfer_id := by
        rw [dictErase_eq_filter hk]
        intro q hq
        have hq2 := (List.mem_filter.mp hq).2
        simpa using hq2
      refine ⟨?_, ?_, ?_⟩
      · rw [hc]
        simp only [get_progress, hg]
        constructor
        · intro hfalse
          cases hfalse
        · rintro (h1 | ⟨p, hp, hps⟩)
          · cases h1
          · cases hp
            exact absurd hs hps
      · intro hfalse
        rw [hc] at hfalse
        cases hfalse
      · intro p hp hps
        rw [get_progress, hg] at hp
        cases hp
        refine ⟨by rw [hc], by rw [hc], by rw [hc, hc], by rw [hc]; exact hnone,
          ?_, ?_⟩
        · intro ops hops
          rw [hc]
          exact trackerRun_absent habs ops hops
        · rw [hc]
          simp [handler_observes_cancelled, hnone]
    · have hc : cancel_transfer tk transfer_id cr =
          { ok := false, state := tk, closed_socket := none } := by
        unfold cancel_transfer
        rw [hg]
        dsimp only
        rw [if_pos hs]
      refine ⟨?_, ?_, ?_⟩
      · rw [hc]
        simp only [get_progress, hg]
        constructor
        · intro _
          exact Or.inr ⟨p0, rfl, hs⟩
        · intro _
          trivial
      · intro _
        rw [hc]
      · intro p hp hps
        rw [get_progress, hg] at hp
        cases hp
        exact absurd hps hs

/-- A concrete tracker holding one active receive transfer with socket
handle 99 attached. -/
def sampleTracker : Tracker :=
  create_transfer ⟨[], []⟩ "t1" "receive" "10.0.0.9" "10.0.0.5" "f.txt" 10
    (some 99) 0

/-- The progress entry `sampleTracker` stores under "t1": active, 0 of 10
bytes transferred. -/
def sampleActiveEntry : Progress :=
  { direction := "receive", sender_ip := "10.0.0.9",
    receiver_ip := "10.0.0.5", filename := "f.txt", file_size := 10,
    bytes_transferred := 0, progress_percent := 0, speed := 0,
    start_time := 0, last_update := 0, status := "active", last_bytes := 0,
    last_time := 0 }

/-- Claim C9 evidence, witnessed on `sampleTracker`: cancelling "t1"
succeeds, closes socket 99, removes the entry, and the handler's
cancelled-status check reads false. -/
theorem cancel_transfer_contract_witness :
    (cancel_transfer sampleTracker "t1" false).ok = true ∧
    (cancel_transfer sampleTracker "t1" false).closed_socket = some 99 ∧
    get_progress (cancel_transfer sampleTracker "t1" false).state "t1" = none ∧
    handler_observes_cancelled (cancel_transfer sampleTracker "t1" false).state
      "t1" = false := by
  have h := (cancel_transfer_contract sampleTracker "t1" false (by decide)).2.2
    sampleActiveEntry (by decide) rfl
  refine ⟨h.1, ?_, h.2.2.2.1, h.2.2.2.2.2⟩
  rw [h.2.1]
  decide

/-- Claim C10: `complete_transfer(id)` on a stored id overwrites exactly
the status (to `"completed"`) and the progress percentage (to 100.0,
whatever `bytes_transferred` holds), leaves every other field and every
other entry unchanged, and is a no-op when the id is unknown. -/
theorem complete_transfer_contract (tk : Tracker) (transfer_id : String) :
    (dictGet transfer_id tk._progress = none →
      complete_transfer tk transfer_id = tk) ∧
    (∀ p, dictGet transfer_id tk._progress = some p →
      get_progress (complete_transfer tk transfer_id) transfer_id =
        some { p with status := "completed", progress_percent := 100 } ∧
      (∀ tid2, tid2 ≠ transfer_id →
        get_progress (complete_transfer tk transfer_id) tid2 =
          get_progress tk tid2) ∧
      (complete_transfer tk transfer_id)._active_sockets =
        tk._active_sockets) := by
  constructor
  · intro hg
    unfold complete_transfer
    rw [hg]
  · intro p hg
    have hc : complete_transfer tk transfer_id =
        { tk with
          _progress := dictInsert transfer_id
            { p with status := "completed", progress_percent := 100 }
            tk._progress } := by
      unfold complete_transfer
      rw [hg]
    refine ⟨?_, ?_, ?_⟩
    · rw [hc]
      exact dictGet_insert_self _ _ _
    · intro tid2 hne
      rw [hc]
      exact dictGet_insert_ne _ _ _ _ hne
    · rw [hc]

/-- Claim C10, witnessed: completing the 0-of-10-bytes transfer forces
its percentage to 100 and its status to completed, other fields intact. -/
theorem complete_transfer_contract_witness :
    get_progress (complete_transfer sampleTracker "t1") "t1" =
      some { sampleActiveEntry with
             status := "completed", progress_percent := 100 } := by
  exact ((complete_transfer_contract sampleTracker "t1").2 sampleActiveEntry
    (by decide)).1

/-! ## TCP receive path (`utils/file_handler.py` `receive_file`,
`utils/transfer_service.py` `_handle_client`)

The receiver's view of one inbound connection is embedded as data: the
outcome of the single `sock.recv(1024)` metadata read (the sender writes
the JSON frame with a separate `send`, so it arrives as its own segment),
followed by the payload as the sequence of byte segments successive
`recv` calls deliver; an exhausted sequence means the peer closed the
connection (`recv` returns `b''`).  Bytes are naturals.  The receive
loops are written with an explicit fuel argument (any fuel above the
total segment footprint behaves identically, and the wrappers supply
such a fuel), so that every function evaluates by kernel reduction. -/

abbrev Chunk := List Nat

/-- `OPTIMAL_CHUNK_SIZE` (file_handler.py line 15): 1 MB. -/
def OPTIMAL_CHUNK_SIZE : Nat := 1024 * 1024

/-- Outcome of `sock.recv(1024)` + `json.loads` + field reads on the
metadata frame: connection already closed (`recv` gave `b''`), malformed
JSON (`json.loads` raised), or a parsed object with its optional
`filename` field and its `size` field (`metadata.get('size', 0)` folds a
missing size into 0). -/
inductive MetaFrame where
  | closed
  | malformed
  | fields (filename : Option String) (size : Nat)
deriving DecidableEq, Repr

/-- What the receiver can observe on one inbound TCP connection. -/
structure SockIn where
  meta : MetaFrame
  payload : List Chunk
deriving DecidableEq, Repr

/-- `sock.recv(n)` on the payload stream: returns at most `n` bytes of
the next delivered segment, leaving the remainder queued; an empty
result means the connection closed. -/
def recvSock (n : Nat) : List Chunk → Chunk × List Chunk
  | [] => ([], [])
  | c :: rest => if c.length ≤ n then (c, rest) else (c.take n, c.drop n :: rest)

/-- Total footprint of queued segments; any fuel above it is enough. -/
def sockLen (s : List Chunk) : Nat := (s.map List.length).sum + s.length

/-- Observable I/O events of the receive path, in program order. -/
inductive Ev where
  | recv (n : Nat)
  | meta_cb (filename : String) (size : Nat)
  | ack
  | write (c : Chunk)
  | close
deriving DecidableEq, Repr

/-- Outcome of one receive loop: bytes written to the open file, the
returned total (`none` when the loop bails out with `return None, None`),
and the emitted events. -/
structure LoopOut where
  file : Chunk
  result : Option Nat
  events : List Ev
deriving DecidableEq, Repr

/-- The known-size loop of `receive_file` (lines 112-135):
`while total_received < file_size`, request
`min(OPTIMAL_CHUNK_SIZE, remaining)` bytes, fail on an empty read, else
write the chunk.  Fuel-indexed; fuel never runs out for
`fuel > sockLen chunks`. -/
def recvKnownFuel : Nat → Nat → List Chunk → Nat → LoopOut
  | 0, _, _, _ => { file := [], result := none, events := [] }
  | fuel + 1, file_size, chunks, total =>
    if total < file_size then
      let n := min OPTIMAL_CHUNK_SIZE (file_size - total)
      let c := (recvSock n chunks).1
      let rest := (recvSock n chunks).2
      if c = [] then { file := [], result := none, events := [Ev.recv n] }
      else
        let out := recvKnownFuel fuel file_size rest (total + c.length)
        { file := c ++ out.file, result := out.result,
          events := Ev.recv n :: Ev.write c :: out.events }
    else { file := [], result := some total, events := [] }

/-- The unknown-size loop of `receive_file` (lines 89-111): read
`OPTIMAL_CHUNK_SIZE` bytes until the connection closes, writing each
chunk; always returns the byte count on clean close. -/
def recvUnknownFuel : Nat → List Chunk → LoopOut
  | 0, _ => { file := [], result := none, events := [] }
  | fuel + 1, chunks =>
    let c := (recvSock OPTIMAL_CHUNK_SIZE chunks).1
    let rest := (recvSock OPTIMAL_CHUNK_SIZE chunks).2
    if c = [] then
      { file := [], result := some 0, events := [Ev.recv OPTIMAL_CHUNK_SIZE] }
    else
      let out := recvUnknownFuel fuel rest
      { file := c ++ out.file,
        result := out.result.map fun t => c.length + t,
        events := Ev.recv OPTIMAL_CHUNK_SIZE :: Ev.write c :: out.events }

def recvKnown (file_size : Nat) (chunks : List Chunk) (total : Nat) : LoopOut :=
  recvKnownFuel (sockLen chunks + 1) file_size chunks total

def recvUnknown (chunks : List Chunk) : LoopOut :=
  recvUnknownFuel (sockLen chunks + 1) chunks

/-- Result of `receive_file`: the returned pair (modelling the returned
path by its filename — the directory part is the fixed save folder), the
destination file's bytes (`none` when the file was never opened), and
the event trace. -/
structure RecvOut where
  result : Option (String × Nat)
  file : Option Chunk
  events : List Ev
deriving DecidableEq, Repr

/-- `receive_file` (file_handler.py lines 39-145), with the handler's
callbacks: any failure before the filename check returns `(None, None)`
with nothing sent; otherwise the metadata callback fires, the 2-byte
`"OK"` acknowledgment is sent, the destination file is opened, and one
of the two loops runs.  Progress callbacks only feed the tracker and are
not part of the wire/file behaviour. -/
def receive_file (s : SockIn) : RecvOut :=
  match s.meta with
  | .closed => { result := none, file := none, events := [Ev.recv 1024] }
  | .malformed => { result := none, file := none, events := [Ev.recv 1024] }
  | .fields filename size =>
    match filename with
    | none => { result := none, file := none, events := [Ev.recv 1024] }
    | some f =>
      if f = "" then { result := none, file := none, events := [Ev.recv 1024] }
      else
        let out := if size = 0 then recvUnknown s.payload
                   else recvKnown size s.payload 0
        { result := out.result.map fun t => (f, t),
          file := some out.file,
          events := Ev.recv 1024 :: Ev.meta_cb f size :: Ev.ack :: out.events }

/-- `TransferService._handle_client` (transfer_service.py lines 96-273),
restricted to its socket and file behaviour: the authorization gate, then
`receive_file` with the tracker callbacks, then the unconditional close
in the `finally` block. -/
def handle_client (manager : Option ConnectionManager) (sender_ip : String)
    (s : SockIn) : RecvOut :=
  match manager with
  | some m =>
    if is_connected m sender_ip then
      let out := receive_file s
      { out with events := out.events ++ [Ev.close] }
    else
      { result := none, file := none, events := [Ev.close] }
  | none =>
    let out := receive_file s
    { out with events := out.events ++ [Ev.close] }

/-- The metadata frame parsed as JSON carrying a non-empty filename. -/
def metaOk : MetaFrame → Prop
  | .fields (some f) _ => f ≠ ""
  | _ => False

/-- Loop events are only reads and writes. -/
def isRecvOrWrite : Ev → Prop
  | .recv _ => True
  | .write _ => True
  | _ => False

/-! ### Facts about the receive loops -/

theorem recvSock_flatten (n : Nat) (chunks : List Chunk) :
    (recvSock n chunks).1 ++ (recvSock n chunks).2.flatten = chunks.flatten := by
  cases chunks with
  | nil => simp [recvSock]
  | cons c rest =>
    by_cases h : c.length ≤ n
    · simp [recvSock, h]
    · simp only [recvSock, if_neg h, List.flatten_cons]
      rw [← List.append_assoc, List.take_append_drop]

theorem recvSock_length_le (n : Nat) (chunks : List Chunk) :
    (recvSock n chunks).1.length ≤ n := by
  cases chunks with
  | nil => simp [recvSock]
  | cons c rest =>
    by_cases h : c.length ≤ n
    · simp [recvSock, h]
    · simp [recvSock, h]

theorem recvSock_sockLen {n : Nat} {chunks : List Chunk}
    (hc : (recvSock n chunks).1 ≠ []) :
    sockLen (recvSock n chunks).2 < sockLen chunks := by
  cases chunks with
  | nil => simp [recvSock] at hc
  | cons c rest =>
    by_cases h : c.length ≤ n
    · simp only [recvSock, if_pos h]
      simp only [sockLen, List.map_cons, List.sum_cons, List.length_cons]
      omega
    · simp only [recvSock, if_neg h] at hc ⊢
      have hn : 0 < n := by
        rcases Nat.eq_zero_or_pos n with h0 | h0
        · subst h0
          simp at hc
        · exact h0
      simp only [sockLen, List.map_cons, List.sum_cons, List.length_cons,
        List.length_drop]
      omega

theorem recvSock_preserves_nonempty {n : Nat} {chunks : List Chunk}
    (hne : ∀ c ∈ chunks, c ≠ []) :
    ∀ c ∈ (recvSock n chunks).2, c ≠ [] := by
  cases chunks with
  | nil => simp [recvSock]
  | cons c rest =>
    by_cases h : c.length ≤ n
    · simp only [recvSock, if_pos h]
      exact fun d hd => hne d (List.mem_cons_of_mem _ hd)
    · simp only [recvSock, if_neg h]
      intro d hd
      rcases List.mem_cons.mp hd with h1 | h2
      · rw [h1]
        intro hd0
        have := List.drop_eq_nil_iff.mp hd0
        omega
      · exact hne d (List.mem_cons_of_mem _ h2)

theorem recvKnownFuel_events (file_size : Nat) :
    ∀ (fuel : Nat) (chunks : List Chunk) (total : Nat),
      ∀ e ∈ (recvKnownFuel fuel file_size chunks total).events,
        isRecvOrWrite e := by
  intro fuel
  induction fuel with
  | zero =>
    intro chunks total e he
    simp [recvKnownFuel] at he
  | succ fuel ih =>
    intro chunks total e he
    simp only [recvKnownFuel] at he
    by_cases h1 : total < file_size
    · rw [if_pos h1] at he
      by_cases h2 :
          (recvSock (min OPTIMAL_CHUNK_SIZE (file_size - total)) chunks).1 = []
      · rw [if_pos h2] at he
        simp only [List.mem_singleton] at he
        rw [he]
        trivial
      · rw [if_neg h2] at he
        rcases List.mem_cons.mp he with he1 | he2
        · rw [he1]
          trivial
        · rcases List.mem_cons.mp he2 with he3 | he4
          · rw [he3]
            trivial
          · exact ih _ _ e he4
    · rw [if_neg h1] at he
      simp at he

theorem recvUnknownFuel_events :
    ∀ (fuel : Nat) (chunks : List Chunk),
      ∀ e ∈ (recvUnknownFuel fuel chunks).events, isRecvOrWrite e := by
  intro fuel
  induction fuel with
  | zero =>
    intro chunks e he
    simp [recvUnknownFuel] at he
  | succ fuel ih =>
    intro chunks e he
    simp only [recvUnknownFuel] at he
    by_cases h2 : (recvSock OPTIMAL_CHUNK_SIZE chunks).1 = []
    · rw [if_pos h2] at he
      simp only [List.mem_singleton] at he
      rw [he]
      trivial
    · rw [if_neg h2] at he
      rcases List.mem_cons.mp he with he1 | he2
      · rw [he1]
        trivial
      · rcases List.mem_cons.mp he2 with he3 | he4
        · rw [he3]
          trivial
        · exact ih _ e he4

theorem recvKnownFuel_success (file_size : Nat) :
    ∀ (fuel : Nat) (chunks : List Chunk) (total : Nat),
      sockLen chunks < fuel → total ≤ file_size →
      ∀ t, (recvKnownFuel fuel file_size chunks total).result = some t →
        t = file_size ∧
        (recvKnownFuel fuel file_size chunks total).file =
          chunks.flatten.take (file_size - total) ∧
        (recvKnownFuel fuel file_size chunks total).file.length =
          file_size - total := by
  intro fuel
  induction fuel with
  | zero =>
    intro chunks total hf
    omega
  | succ fuel ih =>
    intro chunks total hf hle t hres
    by_cases h1 : total < file_size
    · simp only [recvKnownFuel, if_pos h1] at hres ⊢
      by_cases h2 :
          (recvSock (min OPTIMAL_CHUNK_SIZE (file_size - total)) chunks).1 = []
      · rw [if_pos h2] at hres
        cases hres
      · rw [if_neg h2] at hres
        rw [if_neg h2]
        have hlen1 : (recvSock (min OPTIMAL_CHUNK_SIZE (file_size - total))
            chunks).1.length ≤ min OPTIMAL_CHUNK_SIZE (file_size - total) :=
          recvSock_length_le _ _
        have hlen2 : (recvSock (min OPTIMAL_CHUNK_SIZE (file_size - total))
            chunks).1.length ≤ file_size - total :=
          le_trans hlen1 (Nat.min_le_right _ _)
        have hflat := recvSock_flatten
          (min OPTIMAL_CHUNK_SIZE (file_size - total)) chunks
        have hsl := recvSock_sockLen h2
        obtain ⟨ht, hfile, hlen⟩ := ih _ _ (by omega) (by omega) t hres
        refine ⟨ht, ?_, ?_⟩
        · rw [hfile, ← hflat, List.take_append_eq_append_take]
          have hc1 : (recvSock (min OPTIMAL_CHUNK_SIZE (file_size - total))
              chunks).1.take (file_size - total) =
              (recvSock (min OPTIMAL_CHUNK_SIZE (file_size - total)) chunks).1 :=
            List.take_of_length_le hlen2
          have harith : file_size - (total +
              (recvSock (min OPTIMAL_CHUNK_SIZE (file_size - total))
                chunks).1.length) =
              file_size - total -
              (recvSock (min OPTIMAL_CHUNK_SIZE (file_size - total))
                chunks).1.length := by
            omega
          rw [hc1, harith]
        · simp only [List.length_append, hlen]
          omega
    · simp only [recvKnownFuel, if_neg h1] at hres ⊢
      have htt : total = file_size := by omega
      cases hres
      refine ⟨htt, ?_, ?_⟩
      · simp [htt]
      · simp [htt]

theorem recvUnknownFuel_spec :
    ∀ (fuel : Nat) (chunks : List Chunk), sockLen chunks < fuel →
      (∀ c ∈ chunks, c ≠ []) →
      (recvUnknownFuel fuel chunks).file = chunks.flatten ∧
      (recvUnknownFuel fuel chunks).result = some chunks.flatten.length := by
  intro fuel
  induction fuel with
  | zero =>
    intro chunks hf
    omega
  | succ fuel ih =>
    intro chunks hf hne
    by_cases h2 : (recvSock OPTIMAL_CHUNK_SIZE chunks).1 = []
    · cases chunks with
      | nil => simp [recvUnknownFuel, recvSock]
      | cons c rest =>
        exfalso
        have hc0 : c ≠ [] := hne c (List.mem_cons_self _ _)
        by_cases h : c.length ≤ OPTIMAL_CHUNK_SIZE
        · rw [show recvSock OPTIMAL_CHUNK_SIZE (c :: rest) = (c, rest) from
            by simp [recvSock, h]] at h2
          exact hc0 h2
        · rw [show recvSock OPTIMAL_CHUNK_SIZE (c :: rest) =
              (c.take OPTIMAL_CHUNK_SIZE, c.drop OPTIMAL_CHUNK_SIZE :: rest) from
            by simp [recvSock, h]] at h2
          rcases List.take_eq_nil_iff.mp h2 with h3 | h3
          · simp [OPTIMAL_CHUNK_SIZE] at h3
          · exact hc0 h3
    · simp only [recvUnknownFuel, if_neg h2]
      have hsl := recvSock_sockLen h2
      have hne2 := recvSock_preserves_nonempty (n := OPTIMAL_CHUNK_SIZE) hne
      have hflat := recvSock_flatten OPTIMAL_CHUNK_SIZE chunks
      obtain ⟨hfile, hres⟩ := ih _ (by omega) hne2
      constructor
      · rw [hfile, hflat]
      · rw [hres, ← hflat]
        simp [List.length_append]

theorem recvKnown_events (file_size : Nat) (chunks : List Chunk) (total : Nat) :
    ∀ e ∈ (recvKnown file_size chunks total).events, isRecvOrWrite e :=
  recvKnownFuel_events file_size _ chunks total

theorem recvUnknown_events (chunks : List Chunk) :
    ∀ e ∈ (recvUnknown chunks).events, isRecvOrWrite e :=
  recvUnknownFuel_events _ chunks

theorem recvKnown_success (file_size : Nat) (chunks : List Chunk) (total : Nat)
    (hle : total ≤ file_size) (t : Nat)
    (hres : (recvKnown file_size chunks total).result = some t) :
    t = file_size ∧
    (recvKnown file_size chunks total).file =
      chunks.flatten.take (file_size - total) ∧
    (recvKnown file_size chunks total).file.length = file_size - total :=
  recvKnownFuel_success file_size (sockLen chunks + 1) chunks total
    (Nat.lt_succ_self _) hle t hres

theorem recvUnknown_spec (chunks : List Chunk) (hne : ∀ c ∈ chunks, c ≠ []) :
    (recvUnknown chunks).file = chunks.flatten ∧
    (recvUnknown chunks).result = some chunks.flatten.length :=
  recvUnknownFuel_spec (sockLen chunks + 1) chunks (Nat.lt_succ_self _) hne

/-! ### Claims about the transfer path (C1, C7, C8) -/

/-- Claim C1: when a connection manager is configured and
`is_connected(sender_ip)` is false, the handler closes the socket
immediately: no `recv` is issued, no acknowledgment or other protocol
byte is sent, no progress-tracker entry is created (the metadata
callback never fires), and no destination file is opened or written. -/
theorem authorization_gate (m : ConnectionManager) (sender_ip : String)
    (s : SockIn) (hnc : is_connected m sender_ip = false) :
    handle_client (some m) sender_ip s =
      { result := none, file := none, events := [Ev.close] } ∧
    (∀ n, Ev.recv n ∉ (handle_client (some m) sender_ip s).events) ∧
    Ev.ack ∉ (handle_client (some m) sender_ip s).events ∧
    (∀ c, Ev.write c ∉ (handle_client (some m) sender_ip s).events) ∧
    (∀ f sz, Ev.meta_cb f sz ∉ (handle_client (some m) sender_ip s).events) ∧
    (handle_client (some m) sender_ip s).file = none := by
  have hc : handle_client (some m) sender_ip s =
      { result := none, file := none, events := [Ev.close] } := by
    simp [handle_client, hnc]
  refine ⟨hc, ?_, ?_, ?_, ?_, ?_⟩ <;> simp [hc]

/-- Claim C1, witnessed: a fresh registry authorizes nobody, so an
inbound connection from 10.0.0.9 carrying valid metadata and payload is
closed with no events but the close. -/
theorem authorization_gate_witness :
    handle_client (some ConnectionManager.init) "10.0.0.9"
        ⟨MetaFrame.fields (some "f.txt") 3, [[1, 2, 3]]⟩ =
      { result := none, file := none, events := [Ev.close] } :=
  (authorization_gate ConnectionManager.init "10.0.0.9"
    ⟨MetaFrame.fields (some "f.txt") 3, [[1, 2, 3]]⟩ (by decide)).1

/-- Claim C7: `receive_file` sends the 2-byte acknowledgment only after
the metadata frame has parsed as JSON with a non-empty filename — on any
earlier failure it returns `(None, None)` having sent nothing and written
nothing — and every payload write lands strictly after the
acknowledgment: the event trace is exactly the metadata read, the
metadata callback, the ack, and then only reads and writes. -/
theorem protocol_ordering (s : SockIn) :
    (¬ metaOk s.meta →
      receive_file s =
        { result := none, file := none, events := [Ev.recv 1024] }) ∧
    (metaOk s.meta → ∃ f sz, s.meta = MetaFrame.fields (some f) sz ∧
      ∃ evs, (receive_file s).events =
          Ev.recv 1024 :: Ev.meta_cb f sz :: Ev.ack :: evs ∧
        ∀ e ∈ evs, isRecvOrWrite e) ∧
    (∀ i c, (receive_file s).events[i]? = some (Ev.write c) →
      2 < i ∧ (receive_file s).events[2]? = some Ev.ack) ∧
    (Ev.ack ∈ (receive_file s).events → metaOk s.meta) := by
  by_cases hok : metaOk s.meta
  · obtain ⟨f, sz, hmeta, hf⟩ :
        ∃ f sz, s.meta = MetaFrame.fields (some f) sz ∧ f ≠ "" := by
      cases hm : s.meta with
      | closed => rw [hm] at hok; exact hok.elim
      | malformed => rw [hm] at hok; exact hok.elim
      | fields fn sz =>
        cases fn with
        | none => rw [hm] at hok; exact hok.elim
        | some f =>
          rw [hm] at hok
          exact ⟨f, sz, rfl, hok⟩
    obtain ⟨meta, payload⟩ := s
    simp only at hmeta
    subst hmeta
    have hgood : receive_file ⟨MetaFrame.fields (some f) sz, payload⟩ =
        { result := (if sz = 0 then recvUnknown payload
            else recvKnown sz payload 0).result.map fun t => (f, t),
          file := some (if sz = 0 then recvUnknown payload
            else recvKnown sz payload 0).file,
          events := Ev.recv 1024 :: Ev.meta_cb f sz :: Ev.ack ::
            (if sz = 0 then recvUnknown payload
              else recvKnown sz payload 0).events } := by
      simp [receive_file, hf]
    have hloop : ∀ e ∈ (if sz = 0 then recvUnknown payload
        else recvKnown sz payload 0).events, isRecvOrWrite e := by
      by_cases hsz : sz = 0
      · rw [if_pos hsz]
        exact recvUnknown_events payload
      · rw [if_neg hsz]
        exact recvKnown_events sz payload 0
    refine ⟨fun hm => absurd hok hm, fun _ => ⟨f, sz, rfl, _, ?_, hloop⟩,
      ?_, fun _ => hok⟩
    · rw [hgood]
    · intro i c hi
      rw [hgood] at hi
      match i, hi with
      | 0, hi => simp at hi
      | 1, hi => simp at hi
      | 2, hi => simp at hi
      | (i + 3), hi => exact ⟨by omega, by rw [hgood]; simp⟩
  · have hbad : receive_file s =
        { result := none, file := none, events := [Ev.recv 1024] } := by
      obtain ⟨meta, payload⟩ := s
      cases meta with
      | closed => rfl
      | malformed => rfl
      | fields fn sz =>
        cases fn with
        | none => rfl
        | some f =>
          have hf : f = "" := by
            by_contra hf
            exact hok hf
          subst hf
          simp [receive_file]
    refine ⟨fun _ => hbad, fun hm => absurd hm hok, ?_, ?_⟩
    · intro i c hi
      rw [hbad] at hi
      match i, hi with
      | 0, hi => simp at hi
      | (i + 1), hi => simp at hi
    · intro hack
      rw [hbad] at hack
      simp at hack

/-- Claim C7, witnessed on a malformed metadata frame: nothing is sent,
nothing is written, the routine returns `(None, None)`. -/
theorem protocol_ordering_witness :
    receive_file ⟨MetaFrame.malformed, [[1, 2]]⟩ =
      { result := none, file := none, events := [Ev.recv 1024] } :=
  (protocol_ordering ⟨MetaFrame.malformed, [[1, 2]]⟩).1 fun h => h

/-- Claim C8: for a declared size S > 0, a successful receive returns the
metadata filename with byte count exactly S and the destination file
holds exactly the first S bytes of the sender's stream (S bytes long);
for declared size 0, a sender that streams its segments and closes yields
a successful receive whose file is exactly the streamed bytes, with the
byte count reported. -/
theorem byte_exactness (s : SockIn) (f : String) (S : Nat) :
    (s.meta = MetaFrame.fields (some f) S → f ≠ "" → 0 < S →
      ∀ fp t, (receive_file s).result = some (fp, t) →
        fp = f ∧ t = S ∧
        (receive_file s).file = some (s.payload.flatten.take S) ∧
        (s.payload.flatten.take S).length = S) ∧
    (s.meta = MetaFrame.fields (some f) 0 → f ≠ "" →
      (∀ c ∈ s.payload, c ≠ []) →
      (receive_file s).result = some (f, s.payload.flatten.length) ∧
      (receive_file s).file = some s.payload.flatten) := by
  obtain ⟨meta, payload⟩ := s
  constructor
  · intro hmeta hf hS fp t hres
    simp only at hmeta
    subst hmeta
    have hS0 : ¬ S = 0 := by omega
    have hres' : (receive_file ⟨MetaFrame.fields (some f) S, payload⟩).result =
        (recvKnown S payload 0).result.map fun u => (f, u) := by
      simp [receive_file, hf, hS0]
    have hfile' : (receive_file ⟨MetaFrame.fields (some f) S, payload⟩).file =
        some (recvKnown S payload 0).file := by
      simp [receive_file, hf, hS0]
    rw [hres'] at hres
    cases hu : (recvKnown S payload 0).result with
    | none =>
      rw [hu] at hres
      cases hres
    | some u =>
      rw [hu] at hres
      simp only [Option.map_some', Option.some.injEq, Prod.mk.injEq] at hres
      obtain ⟨hfp, hut⟩ := hres
      obtain ⟨htS, hfile2, hlen2⟩ :=
        recvKnown_success S payload 0 (Nat.zero_le _) u hu
      rw [Nat.sub_zero] at hfile2 hlen2
      refine ⟨hfp.symm, by omega, ?_, ?_⟩
      · rw [hfile', hfile2]
      · rw [← hfile2]
        exact hlen2
  · intro hmeta hf hne
    simp only at hmeta
    subst hmeta
    have hres' : (receive_file ⟨MetaFrame.fields (some f) 0, payload⟩).result =
        (recvUnknown payload).result.map fun u => (f, u) := by
      simp [receive_file, hf]
    have hfile' : (receive_file ⟨MetaFrame.fields (some f) 0, payload⟩).file =
        some (recvUnknown payload).file := by
      simp [receive_file, hf]
    obtain ⟨hfile2, hres2⟩ := recvUnknown_spec payload hne
    constructor
    · rw [hres', hres2]
      rfl
    · rw [hfile', hfile2]

/-- Claim C8, witnessed: declared size 3 against segments [10,20],[30,40]
yields the file [10,20,30] and count 3 (the fourth byte is left unread);
declared size 0 against the same segments yields file [10,20,30,40] and
count 4. -/
theorem byte_exactness_witness :
    ((receive_file ⟨MetaFrame.fields (some "f.txt") 3, [[10, 20], [30, 40]]⟩).file
        = some [10, 20, 30] ∧
      (receive_file ⟨MetaFrame.fields (some "f.txt") 3,
        [[10, 20], [30, 40]]⟩).result = some ("f.txt", 3)) ∧
    ((receive_file ⟨MetaFrame.fields (some "f.txt") 0, [[10, 20], [30, 40]]⟩).file
        = some [10, 20, 30, 40] ∧
      (receive_file ⟨MetaFrame.fields (some "f.txt") 0,
        [[10, 20], [30, 40]]⟩).result = some ("f.txt", 4)) := by
  have h1 := (byte_exactness ⟨MetaFrame.fields (some "f.txt") 3,
    [[10, 20], [30, 40]]⟩ "f.txt" 3).1 rfl (by decide) (by decide)
    "f.txt" 3 (by decide)
  have h2 := (byte_exactness ⟨MetaFrame.fields (some "f.txt") 0,
    [[10, 20], [30, 40]]⟩ "f.txt" 0).2 rfl (by decide) (by decide)
  exact ⟨⟨by rw [h1.2.2.1]; rfl, by decide⟩, ⟨by rw [h2.2]; rfl, by rw [h2.1]; rfl⟩⟩

end Crossdrop
